import Mathlib

/-!
Verification development for the dezero automatic-differentiation primitive
library (`src/book_3/dezero/functions.py`) and its companion NLP utilities.

Arrays of the external numeric backend are modelled shallowly by `NDArray`:
a shape (list of dimension extents) together with a total indexing function
on multi-indices; only indices valid for the shape are meaningful.  Scalar
elements are rationals (for the purely algebraic primitives) or reals (for
the transcendental ones); backend-supplied transcendental functions are
passed as explicit function parameters, mirroring the `ArrayBackend`
capability boundary of the specification.
-/

/-- An N-dimensional array: a shape and a (total) indexing function.
Only multi-indices that are `validIdx` for `shape` are meaningful. -/
structure NDArray (α : Type) where
  shape : List ℕ
  get : List ℕ → α

/-- A multi-index is valid for a shape when it has the same length and is
pointwise below the dimension extents. -/
def validIdx (shape idx : List ℕ) : Prop :=
  idx.length = shape.length ∧ ∀ k (h : k < idx.length), idx[k] < shape.getD k 0

instance (shape idx : List ℕ) : Decidable (validIdx shape idx) := by
  unfold validIdx; infer_instance

/-- Extensional equality of arrays: same shape and same entries at every
valid index. -/
def NDArray.eqOn {α : Type} (a b : NDArray α) : Prop :=
  a.shape = b.shape ∧ ∀ idx, validIdx a.shape idx → a.get idx = b.get idx

/-- A rank-0 (scalar) array. -/
def NDArray.scalar {α : Type} (v : α) : NDArray α := ⟨[], fun _ => v⟩

/-- An all-ones array of the given shape (`xp.ones`). -/
def NDArray.ones (α : Type) [One α] (s : List ℕ) : NDArray α := ⟨s, fun _ => 1⟩

/-- All valid multi-indices of a shape, in row-major order. -/
def allIdx : List ℕ → List (List ℕ)
  | [] => [[]]
  | d :: ds => (List.range d).flatMap (fun i => (allIdx ds).map (i :: ·))

/-- Total sum of all entries of an array (`x.sum()` with `axis=None`). -/
def NDArray.sumAll (x : NDArray ℚ) : ℚ := ((allIdx x.shape).map x.get).sum

/-- Row-major linearization of a multi-index. -/
def ravelIdx : List ℕ → List ℕ → ℕ
  | _, [] => 0
  | [], _ => 0
  | d :: ds, i :: is => i * ds.prod + ravelIdx ds is

/-- Inverse of `ravelIdx`: the multi-index of a row-major position. -/
def unravelIdx : List ℕ → ℕ → List ℕ
  | [], _ => []
  | d :: ds, k => (k / ds.prod) :: unravelIdx ds (k % ds.prod)

/-- Backend `reshape`: same row-major data stream, new shape. -/
def NDArray.reshapeArr {α : Type} (x : NDArray α) (s : List ℕ) : NDArray α :=
  ⟨s, fun idx => x.get (unravelIdx x.shape (ravelIdx s idx))⟩

/-- The source index a broadcast target index maps back to: align trailing
axes and pin coordinates of broadcast (extent-1) axes to 0.  This is the
standard N-dimensional broadcasting rule of the backend. -/
def broadcastIdx (xshape idx : List ℕ) : List ℕ :=
  List.zipWith (fun d i => if d = 1 then 0 else i) xshape
    (idx.drop (idx.length - xshape.length))

/-- Backend `xp.broadcast_to` (the forward of the `BroadcastTo` operation). -/
def broadcastToRaw {α : Type} (x : NDArray α) (s : List ℕ) : NDArray α :=
  ⟨s, fun idx => x.get (broadcastIdx x.shape idx)⟩

/-- Embeds the `broadcast_to` wrapper of functions.py: no-op shortcut when
the shape is unchanged, else the `BroadcastTo` operation's forward. -/
def broadcast_to {α : Type} (x : NDArray α) (s : List ℕ) : NDArray α :=
  if x.shape = s then x else broadcastToRaw x s

/-- Shape of `x.sum(axis=axis, keepdims=keepdims)` for an input of shape
`s`, per backend reduction semantics. -/
def sumOutShape (axis : Option ℕ) (keepdims : Bool) (s : List ℕ) : List ℕ :=
  match axis, keepdims with
  | none, true => List.replicate s.length 1
  | none, false => []
  | some a, true => s.set a 1
  | some a, false => s.eraseIdx a

/-- Embeds `Sum.forward` of functions.py: backend reduction over all axes
(`axis=None`) or over one axis, with or without kept dimensions. -/
def sumForward (axis : Option ℕ) (keepdims : Bool) (x : NDArray ℚ) : NDArray ℚ :=
  match axis, keepdims with
  | none, _ => ⟨sumOutShape none keepdims x.shape, fun _ => x.sumAll⟩
  | some a, true =>
      ⟨sumOutShape (some a) true x.shape,
       fun idx => ((List.range (x.shape.getD a 0)).map (fun k => x.get (idx.set a k))).sum⟩
  | some a, false =>
      ⟨sumOutShape (some a) false x.shape,
       fun idx => ((List.range (x.shape.getD a 0)).map (fun k => x.get (idx.insertIdx a k))).sum⟩

/-- Modelled from the spec: `dezero.utils.reshape_sum_backward` is imported
by `Sum.backward` but its module is not among the sources.  Per the spec,
the output gradient of a sum is "reshaped to reinsert reduced axes
(accounting for `keepdims`)" before being broadcast: with `axis=None` or
`keepdims=True` the gradient already has one entry per reduced cell and is
passed through; with a squeezed single axis an extent-1 axis is reinserted
at the reduced position. -/
def reshape_sum_backward (gy : NDArray ℚ) (axis : Option ℕ) (keepdims : Bool) : NDArray ℚ :=
  match axis, keepdims with
  | none, _ => gy
  | some _, true => gy
  | some a, false => ⟨gy.shape.insertIdx a 1, fun idx => gy.get (idx.eraseIdx a)⟩

/-- Embeds `Sum.backward` of functions.py: reshape the output gradient to
reinsert reduced axes, then broadcast it back to the input shape. -/
def sumBackward (axis : Option ℕ) (keepdims : Bool) (xShape : List ℕ)
    (gy : NDArray ℚ) : NDArray ℚ :=
  broadcast_to (reshape_sum_backward gy axis keepdims) xShape

/-- The output cell an input position was reduced into by
`sum(axis, keepdims)`: drop (or pin to 0) the reduced coordinates. -/
def reducedIdx (axis : Option ℕ) (keepdims : Bool) (idx : List ℕ) : List ℕ :=
  match axis, keepdims with
  | none, true => List.replicate idx.length 0
  | none, false => []
  | some a, true => idx.set a 0
  | some a, false => idx.eraseIdx a

/-! ### Shape-juggling lemmas for the Sum backward pass -/

lemma broadcast_to_shape {α : Type} (x : NDArray α) (s : List ℕ) :
    (broadcast_to x s).shape = s := by
  unfold broadcast_to broadcastToRaw
  split
  · next h => exact h
  · rfl

lemma insertIdx_eraseIdx_eq_set (s : List ℕ) (a : ℕ) (ha : a < s.length) :
    List.insertIdx a 1 (s.eraseIdx a) = s.set a 1 := by
  induction s generalizing a with
  | nil => simp at ha
  | cons d ds ih =>
    cases a with
    | zero => simp
    | succ a =>
      have ha' : a < ds.length := by simpa using ha
      rw [List.eraseIdx_cons_succ, List.insertIdx_succ_cons, List.set_cons_succ, ih a ha']

lemma eraseIdx_set_eq_eraseIdx (idx : List ℕ) (a : ℕ) :
    (idx.set a 0).eraseIdx a = idx.eraseIdx a := by
  induction idx generalizing a with
  | nil => simp
  | cons i is ih =>
    cases a with
    | zero => simp
    | succ a =>
      rw [List.set_cons_succ, List.eraseIdx_cons_succ, List.eraseIdx_cons_succ, ih a]

lemma zipWith_broadcast_set (s idx : List ℕ) (a : ℕ) (ha : a < s.length)
    (hlen : idx.length = s.length)
    (hv : ∀ k (h : k < idx.length), idx[k] < s.getD k 0) :
    List.zipWith (fun d i => if d = 1 then 0 else i) (s.set a 1) idx = idx.set a 0 := by
  apply List.ext_getElem
  · simp [hlen]
  · intro n h1 h2
    have hn1 : n < (s.set a 1).length := by
      simpa using lt_of_lt_of_le h1 (by simp [hlen])
    have hn2 : n < idx.length := by simpa [hlen] using h2
    rw [List.getElem_zipWith, List.getElem_set, List.getElem_set]
    by_cases hcase : a = n
    · simp [hcase]
    · simp only [if_neg hcase]
      have hn3 : n < s.length := by simpa [hlen] using hn2
      by_cases hone : s[n] = 1
      · have hvn := hv n hn2
        rw [List.getD_eq_getElem s 0 (by simpa [hlen] using hn2)] at hvn
        rw [hone] at hvn
        simp [hone, Nat.lt_one_iff.mp hvn]
      · simp [hone]

lemma idx_eq_replicate_zero (n : ℕ) (idx : List ℕ) (hlen : idx.length = n)
    (h1 : ∀ k (h : k < idx.length), idx[k] < 1) : idx = List.replicate n 0 := by
  apply List.ext_getElem
  · simp [hlen]
  · intro k hk1 hk2
    rw [List.getElem_replicate]
    exact Nat.lt_one_iff.mp (h1 k hk1)

lemma set_zero_eq_self (idx : List ℕ) (a : ℕ) (h : idx.getD a 1 = 0) :
    idx.set a 0 = idx := by
  apply List.ext_getElem
  · simp
  · intro n h1 h2
    rw [List.getElem_set]
    by_cases hcase : a = n
    · subst hcase
      rw [if_pos rfl]
      rw [List.getD_eq_getElem idx 1 h2] at h
      exact h.symm
    · simp [hcase]

lemma broadcastToRaw_get {α : Type} (x : NDArray α) (s idx : List ℕ) :
    (broadcastToRaw x s).get idx = x.get (broadcastIdx x.shape idx) := rfl

lemma rsb_get_squeezed (gy : NDArray ℚ) (a : ℕ) (j : List ℕ) :
    (reshape_sum_backward gy (some a) false).get j = gy.get (j.eraseIdx a) := rfl

lemma rsb_shape_squeezed (gy : NDArray ℚ) (a : ℕ) :
    (reshape_sum_backward gy (some a) false).shape = List.insertIdx a 1 gy.shape := rfl

/-- C1: for every array `x`, the backward of `Sum` reshapes the output
gradient to reinsert the reduced axes (respecting `keepdims`) and broadcasts
it back to `x`'s shape, so every input position receives the gradient of the
output cell it was reduced into; in particular for shape `(3,4)` and
`axis=None`, the seeded unit gradient of `sum(x)` propagates back as an
all-ones array of shape `(3,4)`. -/
theorem sum_backward_spec :
    (∀ (s : List ℕ) (axis : Option ℕ) (kd : Bool) (gy : NDArray ℚ),
      (match axis with | none => True | some a => a < s.length) →
      gy.shape = sumOutShape axis kd s →
      (sumBackward axis kd s gy).shape = s ∧
        ∀ idx, validIdx s idx →
          (sumBackward axis kd s gy).get idx = gy.get (reducedIdx axis kd idx)) ∧
    NDArray.eqOn (sumBackward none false [3, 4] (NDArray.scalar (1 : ℚ)))
      (NDArray.ones ℚ [3, 4]) := by
  constructor
  · intro s axis kd gy hax hshape
    refine ⟨broadcast_to_shape _ _, ?_⟩
    intro idx hidx
    obtain ⟨hlen, hv⟩ := hidx
    match axis, kd with
    | none, false =>
      simp only [sumOutShape] at hshape
      simp only [sumBackward, reshape_sum_backward, reducedIdx, broadcast_to]
      split
      · next heq =>
        rw [hshape] at heq
        have hs : s = [] := heq.symm
        subst hs
        have hnil : idx = [] := List.eq_nil_of_length_eq_zero (by simpa using hlen)
        rw [hnil]
      · rw [broadcastToRaw_get, hshape]
        simp [broadcastIdx]
    | none, true =>
      simp only [sumOutShape] at hshape
      simp only [sumBackward, reshape_sum_backward, reducedIdx, broadcast_to]
      split
      · next heq =>
        rw [hshape] at heq
        have hidx0 : idx = List.replicate idx.length 0 := by
          apply idx_eq_replicate_zero _ _ rfl
          intro k hk
          have hk' : k < s.length := by
            rw [hlen] at hk
            exact hk
          have hvk := hv k hk
          rw [List.getD_eq_getElem s 0 hk'] at hvk
          have hs1 : s[k] = 1 := by
            have hrep := List.getElem_of_eq heq (by simpa using hk')
            rw [List.getElem_replicate] at hrep
            exact hrep.symm
          omega
        conv_lhs => rw [hidx0]
      · rw [broadcastToRaw_get, hshape]
        congr 1
        unfold broadcastIdx
        have hdrop : idx.length - (List.replicate s.length (1 : ℕ)).length = 0 := by
          simp [hlen]
        rw [hdrop, List.drop_zero]
        apply List.ext_getElem
        · simp [hlen]
        · intro n h1 h2
          rw [List.getElem_zipWith, List.getElem_replicate, List.getElem_replicate]
          simp
    | some a, false =>
      have ha : a < s.length := hax
      simp only [sumOutShape] at hshape
      have hrshape : (reshape_sum_backward gy (some a) false).shape = s.set a 1 := by
        rw [rsb_shape_squeezed, hshape, insertIdx_eraseIdx_eq_set s a ha]
      simp only [sumBackward, reducedIdx, broadcast_to]
      split
      · exact rsb_get_squeezed gy a idx
      · rw [broadcastToRaw_get, rsb_get_squeezed, hrshape]
        unfold broadcastIdx
        have hdrop : idx.length - (s.set a 1).length = 0 := by simp [hlen]
        rw [hdrop, List.drop_zero, zipWith_broadcast_set s idx a ha hlen hv,
          eraseIdx_set_eq_eraseIdx]
    | some a, true =>
      have ha : a < s.length := hax
      simp only [sumOutShape] at hshape
      simp only [sumBackward, reshape_sum_backward, reducedIdx, broadcast_to]
      split
      · next heq =>
        rw [hshape] at heq
        have hs1 : s[a] = 1 := by
          have := List.getElem_of_eq heq (by simpa using ha)
          rw [List.getElem_set_self] at this
          exact this.symm
        have hidxa : idx.getD a 1 = 0 := by
          have ha' : a < idx.length := by
            rw [hlen]
            exact ha
          rw [List.getD_eq_getElem idx 1 ha']
          have hva := hv a ha'
          rw [List.getD_eq_getElem s 0 (by rw [← hlen]; exact ha')] at hva
          omega
        rw [set_zero_eq_self idx a hidxa]
      · rw [broadcastToRaw_get, hshape]
        unfold broadcastIdx
        have hdrop : idx.length - (s.set a 1).length = 0 := by simp [hlen]
        rw [hdrop, List.drop_zero, zipWith_broadcast_set s idx a ha hlen hv]
  · exact ⟨rfl, fun idx _ => rfl⟩

/-- Witness for C1: a concrete single-axis squeezed reduction on shape
`(2,3)` with a non-constant gradient. -/
theorem sum_backward_spec_witness :
    (sumBackward (some 0) false [2, 3] ⟨[3], fun idx => (idx.getD 0 0 : ℚ)⟩).shape = [2, 3] ∧
      ∀ idx, validIdx [2, 3] idx →
        (sumBackward (some 0) false [2, 3] ⟨[3], fun idx => (idx.getD 0 0 : ℚ)⟩).get idx
          = NDArray.get ⟨[3], fun idx => (idx.getD 0 0 : ℚ)⟩ (reducedIdx (some 0) false idx) :=
  sum_backward_spec.1 [2, 3] (some 0) false ⟨[3], fun idx => (idx.getD 0 0 : ℚ)⟩
    (by decide) rfl

/-! ### Transpose: axis permutations, argsort, and the inverse law -/

/-- Normalization of transpose axes as done both by the backend and by
`Transpose.backward`: each axis is taken modulo the number of axes, so
negative axis indices count from the end. -/
def normAxes (ax : List ℤ) : List ℕ := ax.map (fun a => (a % (ax.length : ℤ)).toNat)

/-- Backend `x.transpose(axes)`: reverse all axes when `axes` is absent
(`None`), else permute the axes by the (normalized) permutation: output
axis `k` carries input axis `axes[k]`. -/
def NDArray.transposeAx {α : Type} (x : NDArray α) (axes : Option (List ℤ)) : NDArray α :=
  match axes with
  | none => ⟨x.shape.reverse, fun idx => x.get idx.reverse⟩
  | some ax =>
      ⟨(normAxes ax).map (fun p => x.shape.getD p 0),
       fun idx => x.get ((List.range x.shape.length).map
         (fun p => idx.getD (List.indexOf p (normAxes ax)) 0))⟩

/-- Backend `np.argsort`: indices that sort the list ascending, stably
(ties broken by position). -/
def argsort (l : List ℕ) : List ℕ :=
  (List.range l.length).mergeSort
    (fun i j => decide (l.getD i 0 < l.getD j 0)
      || (decide (l.getD i 0 = l.getD j 0) && decide (i ≤ j)))

/-- Embeds `Transpose.forward` of functions.py. -/
def transposeForward {α : Type} (axes : Option (List ℤ)) (x : NDArray α) : NDArray α :=
  x.transposeAx axes

/-- Embeds `Transpose.backward` of functions.py: with axes given, transpose
the gradient by `argsort([ax % len(axes) for ax in axes])`; with `None`,
transpose (reverse) again. -/
def transposeBackward {α : Type} (axes : Option (List ℤ)) (gy : NDArray α) : NDArray α :=
  match axes with
  | none => gy.transposeAx none
  | some ax => gy.transposeAx (some ((argsort (normAxes ax)).map Int.ofNat))

lemma perm_range_of_nodup_lt (l : List ℕ) (n : ℕ) (hnd : l.Nodup) (hl : l.length = n)
    (hb : ∀ p ∈ l, p < n) : l.Perm (List.range n) := by
  apply List.perm_of_nodup_nodup_toFinset_eq hnd (List.nodup_range n)
  apply Finset.eq_of_subset_of_card_le
  · intro p hp
    rw [List.mem_toFinset] at hp
    rw [List.mem_toFinset, List.mem_range]
    exact hb p hp
  · calc (List.range n).toFinset.card ≤ (List.range n).length := List.toFinset_card_le _
      _ = n := List.length_range n
      _ = l.length := hl.symm
      _ = l.toFinset.card := (List.toFinset_card_of_nodup hnd).symm

lemma mem_of_lt_of_perm_range (l : List ℕ) (n : ℕ) (hperm : l.Perm (List.range n))
    (k : ℕ) (hk : k < n) : k ∈ l := by
  rw [hperm.mem_iff, List.mem_range]
  exact hk

/-- Argsort of a duplicate-free list of naturals below its length (that is,
of a permutation of `range n`) is the inverse permutation: entry `k` is the
position of value `k`. -/
lemma argsort_of_perm (l : List ℕ) (hnd : l.Nodup) (hb : ∀ p ∈ l, p < l.length) :
    argsort l = (List.range l.length).map (fun k => List.indexOf k l) := by
  set n := l.length with hn
  have hperm0 : l.Perm (List.range n) := perm_range_of_nodup_lt l n hnd rfl hb
  have hmem : ∀ k, k < n → k ∈ l := mem_of_lt_of_perm_range l n hperm0
  set r : ℕ → ℕ → Bool := fun i j => decide (l.getD i 0 < l.getD j 0)
      || (decide (l.getD i 0 = l.getD j 0) && decide (i ≤ j)) with hr
  have hr_iff : ∀ i j, r i j = true ↔
      (l.getD i 0 < l.getD j 0 ∨ (l.getD i 0 = l.getD j 0 ∧ i ≤ j)) := by
    intro i j
    simp [hr]
  have htrans : ∀ a b c, r a b = true → r b c = true → r a c = true := by
    intro a b c hab hbc
    rw [hr_iff] at hab hbc ⊢
    omega
  have htotal : ∀ a b, (r a b || r b a) = true := by
    intro a b
    rw [Bool.or_eq_true, hr_iff, hr_iff]
    omega
  have hanti : ∀ a b, r a b = true → r b a = true → a = b := by
    intro a b hab hba
    rw [hr_iff] at hab hba
    omega
  have hkey : ∀ k, k < n → l.getD (List.indexOf k l) 0 = k := by
    intro k hk
    have hmemk := hmem k hk
    have hlt : List.indexOf k l < l.length := List.indexOf_lt_length.mpr hmemk
    rw [List.getD_eq_getElem l 0 hlt]
    exact List.getElem_indexOf hlt
  have hsorted_t : List.Pairwise (fun a b => r a b = true)
      ((List.range n).map (fun k => List.indexOf k l)) := by
    rw [List.pairwise_iff_getElem]
    intro i j hi hj hij
    simp only [List.getElem_map, List.getElem_range]
    have hi' : i < n := by simpa using hi
    have hj' : j < n := by simpa using hj
    rw [hr_iff, hkey i hi', hkey j hj']
    omega
  have hsorted_m : List.Pairwise (fun a b => r a b = true) (argsort l) :=
    List.sorted_mergeSort htrans htotal (List.range n)
  have hnd_t : ((List.range n).map (fun k => List.indexOf k l)).Nodup := by
    apply List.Nodup.map_on ?_ (List.nodup_range n)
    intro a ha b hb hab
    rw [List.mem_range] at ha hb
    have := hkey a ha
    rw [hab, hkey b hb] at this
    exact this.symm
  have hperm_t : ((List.range n).map (fun k => List.indexOf k l)).Perm (List.range n) := by
    apply perm_range_of_nodup_lt _ _ hnd_t (by simp)
    intro p hp
    rw [List.mem_map] at hp
    obtain ⟨k, hk, hpk⟩ := hp
    rw [List.mem_range] at hk
    rw [← hpk]
    show List.indexOf k l < l.length
    exact List.indexOf_lt_length.mpr (hmem k hk)
  have hperm_m : (argsort l).Perm (List.range n) := List.mergeSort_perm (List.range n) _
  haveI : IsAntisymm ℕ (fun a b => r a b = true) := ⟨hanti⟩
  exact List.eq_of_perm_of_sorted (hperm_m.trans hperm_t.symm) hsorted_m hsorted_t

lemma map_range_getD (idx : List ℕ) (n : ℕ) (h : idx.length = n) :
    (List.range n).map (fun p => idx.getD p 0) = idx := by
  apply List.ext_getElem
  · simp [h]
  · intro k h1 h2
    simp only [List.getElem_map, List.getElem_range]
    exact List.getD_eq_getElem idx 0 h2

lemma normAxes_ofNat (l : List ℕ) (hb : ∀ v ∈ l, v < l.length) :
    normAxes (l.map Int.ofNat) = l := by
  unfold normAxes
  rw [List.length_map, List.map_map]
  have hid : ∀ v ∈ l, ((Int.ofNat v) % ((l.length : ℕ) : ℤ)).toNat = v := by
    intro v hv
    show (((v : ℕ) : ℤ) % ((l.length : ℕ) : ℤ)).toNat = v
    have h2 : ((v : ℕ) : ℤ) < ((l.length : ℕ) : ℤ) := by exact_mod_cast hb v hv
    rw [Int.emod_eq_of_lt (Int.natCast_nonneg v) h2]
    exact Int.toNat_natCast v
  calc List.map ((fun a => (a % ((l.length : ℕ) : ℤ)).toNat) ∘ Int.ofNat) l
      = List.map id l := List.map_congr_left (fun v hv => hid v hv)
    _ = l := List.map_id l

lemma argsort_length (l : List ℕ) : (argsort l).length = l.length := by
  unfold argsort
  rw [(List.mergeSort_perm (List.range l.length) _).length_eq, List.length_range]

lemma transposeAx_some_shape {α : Type} (x : NDArray α) (ax : List ℤ) :
    (x.transposeAx (some ax)).shape = (normAxes ax).map (fun p => x.shape.getD p 0) := rfl

lemma transposeAx_some_get {α : Type} (x : NDArray α) (ax : List ℤ) (idx : List ℕ) :
    (x.transposeAx (some ax)).get idx
      = x.get ((List.range x.shape.length).map
          (fun p => idx.getD (List.indexOf p (normAxes ax)) 0)) := rfl

/-- C5: for every axis permutation, including one given with negative axis
indices, the backward of `Transpose` applies the inverse permutation
(the argsort of the forward axes taken modulo the rank): composing the
forward permutation with the backward permutation restores the original
shape and every entry. -/
theorem transpose_backward_spec :
    ∀ (x : NDArray ℚ) (ax : List ℤ),
      ax.length = x.shape.length →
      (normAxes ax).Nodup →
      (∀ p ∈ normAxes ax, p < ax.length) →
      (transposeBackward (some ax) (transposeForward (some ax) x)).shape = x.shape ∧
        ∀ idx, validIdx x.shape idx →
          (transposeBackward (some ax) (transposeForward (some ax) x)).get idx
            = x.get idx := by
  intro x ax hlen hnd hb
  have hpnlen : (normAxes ax).length = ax.length := by
    unfold normAxes
    rw [List.length_map]
  have hbn : ∀ p ∈ normAxes ax, p < (normAxes ax).length := by
    rw [hpnlen]
    exact hb
  have hperm : (normAxes ax).Perm (List.range (normAxes ax).length) :=
    perm_range_of_nodup_lt _ _ hnd rfl hbn
  have hmem : ∀ k, k < (normAxes ax).length → k ∈ normAxes ax :=
    mem_of_lt_of_perm_range _ _ hperm
  have hargs : argsort (normAxes ax)
      = (List.range (normAxes ax).length).map (fun k => List.indexOf k (normAxes ax)) :=
    argsort_of_perm _ hnd hbn
  have hinvb : ∀ v ∈ argsort (normAxes ax), v < (argsort (normAxes ax)).length := by
    rw [hargs]
    intro v hv
    rw [List.mem_map] at hv
    obtain ⟨k, hk, hvk⟩ := hv
    rw [List.mem_range] at hk
    rw [← hvk, List.length_map, List.length_range]
    exact List.indexOf_lt_length.mpr (hmem k hk)
  have hinvnd : (argsort (normAxes ax)).Nodup := by
    rw [hargs]
    apply List.Nodup.map_on ?_ (List.nodup_range _)
    intro a ha b hb' hab
    rw [List.mem_range] at ha hb'
    exact (List.indexOf_inj (hmem a ha) (hmem b hb')).mp hab
  have hnorm : normAxes ((argsort (normAxes ax)).map Int.ofNat) = argsort (normAxes ax) :=
    normAxes_ofNat _ hinvb
  have hslen : x.shape.length = (normAxes ax).length := by rw [hpnlen, hlen]
  have hinv_get : ∀ p (hp : p < (argsort (normAxes ax)).length),
      (argsort (normAxes ax))[p] = List.indexOf p (normAxes ax) := by
    intro p hp
    rw [List.getElem_of_eq hargs hp, List.getElem_map, List.getElem_range]
  have hcomp : transposeBackward (some ax) (transposeForward (some ax) x)
      = (x.transposeAx (some ax)).transposeAx
          (some ((argsort (normAxes ax)).map Int.ofNat)) := rfl
  constructor
  · rw [hcomp, transposeAx_some_shape, hnorm]
    apply List.ext_getElem
    · rw [List.length_map, argsort_length, hpnlen, hlen]
    · intro k hk1 hk2
      have hkpn : k < (normAxes ax).length := by rw [hpnlen, hlen]; exact hk2
      have hkinv : k < (argsort (normAxes ax)).length := by
        rw [argsort_length]
        exact hkpn
      rw [List.getElem_map, hinv_get k hkinv]
      have hm : List.indexOf k (normAxes ax) < (normAxes ax).length :=
        List.indexOf_lt_length.mpr (hmem k hkpn)
      rw [transposeAx_some_shape,
        List.getD_eq_getElem _ 0 (by rw [List.length_map]; exact hm),
        List.getElem_map, List.getElem_indexOf hm]
      exact List.getD_eq_getElem x.shape 0 hk2
  · intro idx hvalid
    obtain ⟨hidxlen, _⟩ := hvalid
    rw [hcomp, transposeAx_some_get, hnorm]
    have hyslen : (x.transposeAx (some ax)).shape.length = (normAxes ax).length := by
      rw [transposeAx_some_shape, List.length_map]
    rw [hyslen, transposeAx_some_get]
    congr 1
    rw [hslen]
    apply List.ext_getElem
    · simp only [List.length_map, List.length_range]
      rw [hidxlen, hslen]
    · intro p hp1 hp2
      simp only [List.getElem_map, List.getElem_range]
      have hppn : p < (normAxes ax).length := by simpa using hp1
      have hm : List.indexOf p (normAxes ax) < (normAxes ax).length :=
        List.indexOf_lt_length.mpr (hmem p hppn)
      rw [List.getD_eq_getElem _ 0 (by simpa using hm)]
      simp only [List.getElem_map, List.getElem_range]
      have hpinv : p < (argsort (normAxes ax)).length := by
        rw [argsort_length]
        exact hppn
      have hback : List.indexOf (List.indexOf p (normAxes ax)) (argsort (normAxes ax)) = p := by
        conv_lhs => rw [← hinv_get p hpinv]
        exact List.indexOf_getElem hinvnd p hpinv
      rw [hback]
      exact List.getD_eq_getElem idx 0 (by rw [hidxlen, hslen]; exact hppn)

/-- Witness for C5: a rank-2 array transposed with the negative-axis
permutation `(-1, 0)`; the backward transpose restores it. -/
theorem transpose_backward_spec_witness :
    (transposeBackward (some [-1, 0])
        (transposeForward (some [-1, 0])
          (⟨[2, 3], fun idx => (idx.getD 0 0 * 10 + idx.getD 1 0 : ℚ)⟩ : NDArray ℚ))).shape
      = [2, 3] ∧
      ∀ idx, validIdx [2, 3] idx →
        (transposeBackward (some [-1, 0])
            (transposeForward (some [-1, 0])
              (⟨[2, 3], fun idx => (idx.getD 0 0 * 10 + idx.getD 1 0 : ℚ)⟩ : NDArray ℚ))).get idx
          = NDArray.get ⟨[2, 3], fun idx => (idx.getD 0 0 * 10 + idx.getD 1 0 : ℚ)⟩ idx :=
  transpose_backward_spec ⟨[2, 3], fun idx => (idx.getD 0 0 * 10 + idx.getD 1 0 : ℚ)⟩
    [-1, 0] rfl (by decide) (by decide)

/-! ### Variable-level wrappers and the shape-unchanged shortcut -/

/-- Modelled from the spec: the Operation records relevant to the shape
wrappers; per the spec's invocation protocol, a constructed Operation is
recorded as producer of the output Node. -/
inductive Producer where
  | reshapeOp (shape : List ℕ)
  | transposeOp (axes : Option (List ℤ))
deriving DecidableEq

/-- Modelled from the spec: a graph Node (dezero `Variable`, whose module
is not among the sources) wraps an array value and an optional reference to
the Operation that produced it (absent for leaf nodes). -/
structure Var where
  data : NDArray ℚ
  producer : Option Producer

/-- Modelled from the spec: `as_variable` returns a `Variable` argument
unchanged (it only wraps raw arrays); at this level of the model the
argument is already a `Variable`. -/
def as_variable (x : Var) : Var := x

/-- Embeds the `reshape` wrapper of functions.py: no-op shortcut when the
requested shape equals the current shape (the input is returned as a
Variable and no `Reshape` operation is constructed or recorded); otherwise
the `Reshape` operation runs and is recorded as producer. -/
def reshape (x : Var) (shape : List ℕ) : Var :=
  if x.data.shape = shape then as_variable x
  else ⟨x.data.reshapeArr shape, some (Producer.reshapeOp shape)⟩

/-- Embeds the `transpose` wrapper of functions.py: it always constructs
and records a `Transpose` operation; there is no shape-unchanged shortcut
in the source. -/
def transpose (x : Var) (axes : Option (List ℤ)) : Var :=
  ⟨x.data.transposeAx axes, some (Producer.transposeOp axes)⟩

/-- A leaf Variable holding a rank-1 array of shape `(2,)`. -/
def vEx : Var := ⟨⟨[2], fun _ => (3 : ℚ)⟩, none⟩

/-- C4 counterexample: transposing a rank-1 array leaves its shape
unchanged, yet the `transpose` wrapper still constructs and records a
`Transpose` operation as producer (the leaf input had none) — the claimed
no-op shortcut exists for `reshape` but not for `transpose`. -/
theorem transpose_no_shortcut_counterexample :
    (transpose vEx none).data.shape = vEx.data.shape ∧
      vEx.producer = none ∧ (transpose vEx none).producer ≠ none := by
  refine ⟨rfl, rfl, ?_⟩
  intro h
  simp [transpose] at h

/-- C4 (amended): the `reshape` wrapper takes the no-op shortcut — when
the requested shape equals the input's shape it returns the input Variable
itself, recording no new operation — whereas `transpose` always constructs
and records a `Transpose` operation, even when the permuted shape equals
the original. -/
theorem reshape_transpose_shortcut_spec :
    (∀ (v : Var) (s : List ℕ), v.data.shape = s → reshape v s = v) ∧
      ∀ (v : Var) (axes : Option (List ℤ)),
        (transpose v axes).producer = some (Producer.transposeOp axes) := by
  constructor
  · intro v s h
    unfold reshape
    rw [if_pos h]
    rfl
  · intro v axes
    rfl

/-- Witness for the amended C4 on the concrete leaf Variable. -/
theorem reshape_transpose_shortcut_spec_witness :
    reshape vEx [2] = vEx ∧
      (transpose vEx none).producer = some (Producer.transposeOp none) :=
  ⟨reshape_transpose_shortcut_spec.1 vEx [2] rfl,
   reshape_transpose_shortcut_spec.2 vEx none⟩

/-! ### GetItem: gather rows and scatter-add the gradient back -/

/-- Embeds `GetItem.forward` of functions.py for integer-array indexing
along the leading axis: output row `k` of `x[slices]` is input row
`slices[k]`. -/
def getItemForward {m n : ℕ} (x : Fin m → Fin n → ℚ) (slices : List (Fin m)) :
    Fin slices.length → Fin n → ℚ :=
  fun k j => x (slices.get k) j

/-- One in-place `+=` step of the backend scatter-add `xp.add.at`: add a
row into the accumulator at index `i`. -/
def addAt {m n : ℕ} (gx : Fin m → Fin n → ℚ) (i : Fin m) (row : Fin n → ℚ) :
    Fin m → Fin n → ℚ :=
  fun iq j => if iq = i then gx iq j + row j else gx iq j

/-- Embeds `GetItemGrad.forward` of functions.py: start from a zero array
of the input shape and `xp.add.at` the output-gradient rows into it at the
same indices, one addition per output row in order. -/
def getItemGradForward {m n : ℕ} (slices : List (Fin m))
    (gy : Fin slices.length → Fin n → ℚ) : Fin m → Fin n → ℚ :=
  (List.finRange slices.length).foldl
    (fun acc k => addAt acc (slices.get k) (gy k)) (fun _ _ => 0)

lemma addAt_foldl {m n L : ℕ} (σ : Fin L → Fin m) (gy : Fin L → Fin n → ℚ)
    (ks : List (Fin L)) (acc : Fin m → Fin n → ℚ) (i : Fin m) (j : Fin n) :
    (ks.foldl (fun acc k => addAt acc (σ k) (gy k)) acc) i j
      = acc i j + (ks.map (fun k => if σ k = i then gy k j else 0)).sum := by
  induction ks generalizing acc with
  | nil => simp
  | cons k ks ih =>
    rw [List.foldl_cons, ih, List.map_cons, List.sum_cons]
    unfold addAt
    by_cases h : i = σ k
    · rw [if_pos h, if_pos h.symm]
      ring
    · rw [if_neg h, if_neg (fun hh => h hh.symm), zero_add]

/-- C7: the backward of `get_item` scatter-adds the output gradient into a
zero array of the input's shape at the same indices: entry `(i,j)` of the
gradient is the sum of the output-gradient rows whose index selected row
`i`, so duplicate indices accumulate additively, matching the forward's
value duplication. -/
theorem get_item_backward_spec :
    ∀ {m n : ℕ} (x : Fin m → Fin n → ℚ) (slices : List (Fin m))
      (gy : Fin slices.length → Fin n → ℚ) (i : Fin m) (j : Fin n),
      (∀ k, getItemForward x slices k j = x (slices.get k) j) ∧
      getItemGradForward slices gy i j
        = ∑ k : Fin slices.length, if slices.get k = i then gy k j else 0 := by
  intro m n x slices gy i j
  refine ⟨fun k => rfl, ?_⟩
  unfold getItemGradForward
  rw [addAt_foldl, Fin.sum_univ_def]
  simp

/-! ### Dropout -/

/-- Default of the second positional argument `dropout_ratio` of `dropout`
in functions.py. -/
def dropoutDefaultRate : ℚ := 0.5

/-- Embeds `dropout` of functions.py.  The process-wide training flag
`dezero.Config.train` (whose module is not among the sources; modelled from
the spec as an explicit flag argument) selects the branch.  The backend RNG
`xp.random.rand` is modelled as an explicit per-position oracle `rand` with
draws in `[0,1)`.  Training mode computes inverted dropout
`y = x * (rand > rate) / (1 - rate)`; inference mode returns the input
unchanged. -/
def dropout (train : Bool) (rand : List ℕ → ℚ) (x : NDArray ℚ) (rate : ℚ) : NDArray ℚ :=
  match train with
  | true => ⟨x.shape, fun idx => x.get idx * (if rate < rand idx then 1 else 0) / (1 - rate)⟩
  | false => x

/-- C8: dropout reads the process-wide training/inference flag: in training
mode it multiplies the input elementwise by the random keep-mask scaled by
`1/(1-rate)`; in inference mode it returns the input unchanged; the default
rate is 0.5. -/
theorem dropout_spec :
    ∀ (rand : List ℕ → ℚ) (x : NDArray ℚ) (rate : ℚ),
      ((dropout true rand x rate).shape = x.shape ∧
        ∀ idx, (dropout true rand x rate).get idx
          = x.get idx * (if rate < rand idx then 1 else 0) * (1 / (1 - rate))) ∧
      dropout false rand x rate = x ∧ dropoutDefaultRate = 1 / 2 := by
  intro rand x rate
  refine ⟨⟨rfl, fun idx => ?_⟩, rfl, by norm_num [dropoutDefaultRate]⟩
  show x.get idx * (if rate < rand idx then 1 else 0) / (1 - rate) = _
  rw [div_eq_mul_one_div]

/-! ### Log: unguarded backend semantics -/

/-- Embeds `Log.forward` of functions.py: the backend logarithm `xp.log`
(an external capability, passed as `blog`) applied elementwise with no
guard at zero. -/
def logForward (blog : ℚ → ℚ) (x : NDArray ℚ) : NDArray ℚ :=
  ⟨x.shape, fun idx => blog (x.get idx)⟩

/-- Embeds `Log.backward` of functions.py: `gx = gy / x` elementwise via
the backend division (passed as `bdiv`), with no division guard. -/
def logBackward (bdiv : ℚ → ℚ → ℚ) (x gy : NDArray ℚ) : NDArray ℚ :=
  ⟨x.shape, fun idx => bdiv (gy.get idx) (x.get idx)⟩

/-- C9: the `Log` primitive does not special-case zero: forward applies the
backend logarithm unguarded at every position (a zero entry yields exactly
the backend's value at zero), and backward computes the backend division
`gy / x` unguarded (a zero entry yields the backend's division-by-zero
result), so numerical issues propagate to the caller. -/
theorem log_unguarded_spec :
    ∀ (blog : ℚ → ℚ) (bdiv : ℚ → ℚ → ℚ) (x gy : NDArray ℚ) (idx : List ℕ),
      (logForward blog x).get idx = blog (x.get idx) ∧
      (logBackward bdiv x gy).get idx = bdiv (gy.get idx) (x.get idx) ∧
      (x.get idx = 0 →
        (logForward blog x).get idx = blog 0 ∧
        (logBackward bdiv x gy).get idx = bdiv (gy.get idx) 0) := by
  intro blog bdiv x gy idx
  refine ⟨rfl, rfl, fun h => ⟨?_, ?_⟩⟩
  · show blog (x.get idx) = blog 0
    rw [h]
  · show bdiv (gy.get idx) (x.get idx) = bdiv (gy.get idx) 0
    rw [h]

/-- Witness for C9 at a concrete zero input, with the rational field's
division as the backend division. -/
theorem log_unguarded_spec_witness :
    (logForward (fun q => q - 1000) ⟨[1], fun _ => (0 : ℚ)⟩).get [0]
        = (0 : ℚ) - 1000 ∧
      (logBackward (fun a b => a / b) ⟨[1], fun _ => (0 : ℚ)⟩
          ⟨[1], fun _ => (5 : ℚ)⟩).get [0] = (5 : ℚ) / 0 :=
  (log_unguarded_spec (fun q => q - 1000) (fun a b => a / b)
    ⟨[1], fun _ => 0⟩ ⟨[1], fun _ => 5⟩ [0]).2.2 rfl

/-! ### ReLU -/

/-- Embeds `ReLU.forward` of functions.py: `xp.maximum(x, 0.0)`. -/
def reluForward (x : NDArray ℚ) : NDArray ℚ :=
  ⟨x.shape, fun idx => max (x.get idx) 0⟩

/-- Embeds `ReLU.backward` of functions.py: the pass-through mask is the
strict comparison `x.data > 0` on the raw input array and `gx = gy * mask`. -/
def reluBackward (x gy : NDArray ℚ) : NDArray ℚ :=
  ⟨x.shape, fun idx => gy.get idx * (if 0 < x.get idx then 1 else 0)⟩

/-- C10: at input entries exactly zero the backward of ReLU yields a zero
gradient: the mask is the strict comparison `x > 0` on the raw input, so
gradient flows only where the input is strictly positive. -/
theorem relu_backward_spec :
    ∀ (x gy : NDArray ℚ) (idx : List ℕ),
      (x.get idx = 0 → (reluBackward x gy).get idx = 0) ∧
      (0 < x.get idx → (reluBackward x gy).get idx = gy.get idx) ∧
      (¬ 0 < x.get idx → (reluBackward x gy).get idx = 0) := by
  intro x gy idx
  refine ⟨fun h => ?_, fun h => ?_, fun h => ?_⟩
  · show gy.get idx * (if 0 < x.get idx then 1 else 0) = 0
    rw [h, if_neg (lt_irrefl (0 : ℚ)), mul_zero]
  · show gy.get idx * (if 0 < x.get idx then 1 else 0) = gy.get idx
    rw [if_pos h, mul_one]
  · show gy.get idx * (if 0 < x.get idx then 1 else 0) = 0
    rw [if_neg h, mul_zero]

/-- Witness for C10 at a concrete zero entry. -/
theorem relu_backward_spec_witness :
    (reluBackward ⟨[1], fun _ => (0 : ℚ)⟩ ⟨[1], fun _ => (7 : ℚ)⟩).get [0] = 0 :=
  (relu_backward_spec ⟨[1], fun _ => 0⟩ ⟨[1], fun _ => 7⟩ [0]).1 rfl

/-! ### MatMul and Linear -/

/-- Backend matrix transpose `x.T` for rank-2 arrays. -/
def matT {m n : ℕ} (x : Fin m → Fin n → ℚ) : Fin n → Fin m → ℚ := fun i j => x j i

/-- Embeds `MatMul.forward` of functions.py: `y = x.dot(W)`. -/
def matmul {m k n : ℕ} (x : Fin m → Fin k → ℚ) (W : Fin k → Fin n → ℚ) :
    Fin m → Fin n → ℚ :=
  fun i j => ∑ p, x i p * W p j

/-- Embeds `MatMul.backward` of functions.py:
`gx = matmul(gy, W.T)` and `gW = matmul(x.T, gy)`. -/
def matMulBackward {m k n : ℕ} (x : Fin m → Fin k → ℚ) (W : Fin k → Fin n → ℚ)
    (gy : Fin m → Fin n → ℚ) : (Fin m → Fin k → ℚ) × (Fin k → Fin n → ℚ) :=
  (matmul gy (matT W), matmul (matT x) gy)

/-- Modelled from the spec: `utils.sum_to(gy, b.shape)` (its module is not
among the sources) for a rank-1 bias under a rank-2 output gradient — the
spec says "bias gradient = sum-reduce of output gradient to bias shape",
that is, sum over the broadcast row axis. -/
def sum_to_bias {m n : ℕ} (gy : Fin m → Fin n → ℚ) : Fin n → ℚ := fun j => ∑ i, gy i j

/-- Embeds `Linear.forward` of functions.py: `y = x.dot(W)`, plus the
broadcast bias when one is present. -/
def linearForward {m k n : ℕ} (x : Fin m → Fin k → ℚ) (W : Fin k → Fin n → ℚ)
    (b : Option (Fin n → ℚ)) : Fin m → Fin n → ℚ :=
  fun i j => matmul x W i j + (match b with | some bb => bb j | none => 0)

/-- Embeds `Linear.backward` of functions.py: `gb` is `None` when no bias
was supplied, else `sum_to(gy, b.shape)`; `gx = matmul(gy, W.T)` and
`gW = matmul(x.T, gy)` as for `MatMul`. -/
def linearBackward {m k n : ℕ} (x : Fin m → Fin k → ℚ) (W : Fin k → Fin n → ℚ)
    (b : Option (Fin n → ℚ)) (gy : Fin m → Fin n → ℚ) :
    (Fin m → Fin k → ℚ) × (Fin k → Fin n → ℚ) × Option (Fin n → ℚ) :=
  (matmul gy (matT W), matmul (matT x) gy,
    match b with | none => none | some _ => some (sum_to_bias gy))

lemma pairing_left {m k n : ℕ} (gy : Fin m → Fin n → ℚ) (dx : Fin m → Fin k → ℚ)
    (W : Fin k → Fin n → ℚ) :
    ∑ i, ∑ j, gy i j * matmul dx W i j = ∑ i, ∑ p, matmul gy (matT W) i p * dx i p := by
  apply Finset.sum_congr rfl
  intro i _
  simp only [matmul, matT, Finset.mul_sum, Finset.sum_mul]
  rw [Finset.sum_comm]
  apply Finset.sum_congr rfl
  intro p _
  apply Finset.sum_congr rfl
  intro j _
  ring

lemma pairing_right {m k n : ℕ} (gy : Fin m → Fin n → ℚ) (x : Fin m → Fin k → ℚ)
    (dW : Fin k → Fin n → ℚ) :
    ∑ i, ∑ j, gy i j * matmul x dW i j = ∑ p, ∑ j, matmul (matT x) gy p j * dW p j := by
  simp only [matmul, matT, Finset.mul_sum, Finset.sum_mul]
  calc ∑ i, ∑ j, ∑ p, gy i j * (x i p * dW p j)
      = ∑ i, ∑ p, ∑ j, gy i j * (x i p * dW p j) :=
        Finset.sum_congr rfl (fun i _ => Finset.sum_comm)
    _ = ∑ p, ∑ i, ∑ j, gy i j * (x i p * dW p j) := Finset.sum_comm
    _ = ∑ p, ∑ j, ∑ i, gy i j * (x i p * dW p j) :=
        Finset.sum_congr rfl (fun p _ => Finset.sum_comm)
    _ = ∑ p, ∑ j, ∑ i, x i p * gy i j * dW p j := by
        apply Finset.sum_congr rfl
        intro p _
        apply Finset.sum_congr rfl
        intro j _
        apply Finset.sum_congr rfl
        intro i _
        ring

/-- C3: for rank-2 `x` and `W` the backward of the matrix product returns
`gx = gy·Wᵗ` and `gW = xᵗ·gy` — exactly the adjoints of the forward map
under the directional-derivative pairing — and the backward of the affine
`linear` returns the same `gx` and `gW` together with a bias gradient
sum-reduced over the broadcast row axis to the bias shape, absent (`None`)
when no bias was supplied. -/
theorem matmul_linear_backward_spec :
    ∀ {m k n : ℕ} (x : Fin m → Fin k → ℚ) (W : Fin k → Fin n → ℚ)
      (gy : Fin m → Fin n → ℚ) (b : Fin n → ℚ),
      (∀ i p, (matMulBackward x W gy).1 i p = ∑ j, gy i j * W p j) ∧
      (∀ p j, (matMulBackward x W gy).2 p j = ∑ i, x i p * gy i j) ∧
      (∀ (dx : Fin m → Fin k → ℚ) (dW : Fin k → Fin n → ℚ),
        ∑ i, ∑ j, gy i j * (matmul dx W i j + matmul x dW i j)
          = (∑ i, ∑ p, (matMulBackward x W gy).1 i p * dx i p)
            + ∑ p, ∑ j, (matMulBackward x W gy).2 p j * dW p j) ∧
      linearBackward x W (some b) gy
        = ((matMulBackward x W gy).1, (matMulBackward x W gy).2,
            some (fun j => ∑ i, gy i j)) ∧
      linearBackward x W none gy
        = ((matMulBackward x W gy).1, (matMulBackward x W gy).2, none) := by
  intro m k n x W gy b
  refine ⟨fun i p => rfl, fun p j => rfl, ?_, rfl, rfl⟩
  intro dx dW
  simp only [matMulBackward, mul_add, Finset.sum_add_distrib]
  rw [pairing_left gy dx W, pairing_right gy x dW]

/-! ### Softmax and fused softmax cross-entropy

The backend exponential and logarithm are external capabilities; they are
passed as explicit function parameters `bexp`, `blog`.  Theorems assume of
`bexp` exactly what an exponential provides: positivity and the
additive-to-multiplicative law. -/

section SoftmaxDefs

variable {α : Type} [LinearOrderedField α]

/-- Backend per-row maximum `x.max(axis=1, keepdims=True)` over the class
axis of a rank-2 input. -/
def rowMax {N C : ℕ} (x : Fin N → Fin (C + 1) → α) (i : Fin N) : α :=
  Finset.univ.sup' Finset.univ_nonempty (x i)

/-- Embeds `Softmax.forward` of functions.py at its default class axis
`axis=1`: subtract the per-row maximum, exponentiate with the backend
exponential, normalize by the row sum. -/
def softmaxF {N C : ℕ} (bexp : α → α) (x : Fin N → Fin (C + 1) → α) :
    Fin N → Fin (C + 1) → α :=
  fun i j => bexp (x i j - rowMax x i) / ∑ p, bexp (x i p - rowMax x i)

/-- Embeds `softmax_simple` of functions.py: the naive
exponential-normalize without the stabilizing max subtraction. -/
def softmax_simple {N C : ℕ} (bexp : α → α) (x : Fin N → Fin (C + 1) → α) :
    Fin N → Fin (C + 1) → α :=
  fun i j => bexp (x i j) / ∑ p, bexp (x i p)

/-- Modelled from the spec: `dezero.utils.logsumexp` is imported by
`SoftmaxCrossEntropy.forward` but its module is not among the sources; per
the spec it is the stabilized log-sum-exp along the class axis: subtract
the per-row max, exponentiate, sum, take the backend logarithm, add the
max back. -/
def logsumexp {N C : ℕ} (bexp blog : α → α) (x : Fin N → Fin (C + 1) → α)
    (i : Fin N) : α :=
  rowMax x i + blog (∑ p, bexp (x i p - rowMax x i))

/-- Embeds `SoftmaxCrossEntropy.forward` of functions.py:
`log_p = (x - logsumexp(x))[range(N), t]` and `y = -log_p.sum() / N`. -/
def softmaxCrossEntropyForward {N C : ℕ} (bexp blog : α → α)
    (x : Fin N → Fin (C + 1) → α) (t : Fin N → Fin (C + 1)) : α :=
  -(∑ i, (x i (t i) - logsumexp bexp blog x i)) / (N : α)

/-- Embeds `SoftmaxCrossEntropy.backward` of functions.py: the output
gradient is scaled by `1/N`, then `gx = (softmax(x) - one_hot(t)) * gy`. -/
def softmaxCrossEntropyBackward {N C : ℕ} (bexp : α → α)
    (x : Fin N → Fin (C + 1) → α) (t : Fin N → Fin (C + 1)) (gy : α) :
    Fin N → Fin (C + 1) → α :=
  fun i j => (softmaxF bexp x i j - (if j = t i then 1 else 0)) * (gy * (1 / (N : α)))

end SoftmaxDefs

/-- Subtracting the per-row maximum before exponentiating does not change
the softmax value: the stabilized form equals the naive
exponential-normalize. -/
lemma softmaxF_eq_simple {α : Type} [LinearOrderedField α] {N C : ℕ} (bexp : α → α)
    (hpos : ∀ q, 0 < bexp q) (hadd : ∀ q r, bexp (q + r) = bexp q * bexp r)
    (x : Fin N → Fin (C + 1) → α) (i : Fin N) (j : Fin (C + 1)) :
    softmaxF bexp x i j = softmax_simple bexp x i j := by
  unfold softmaxF softmax_simple
  have hshift : ∀ q : α, bexp (q - rowMax x i) = bexp q * bexp (-(rowMax x i)) := by
    intro q
    rw [← hadd]
    congr 1
    ring
  simp only [hshift]
  rw [← Finset.sum_mul]
  exact mul_div_mul_right _ _ (ne_of_gt (hpos _))

/-- C6: every row of the softmax forward value sums to exactly 1, and the
stabilizing per-row max subtraction does not change the result: the
stabilized softmax equals the naive exponential-normalize along the class
axis. -/
theorem softmax_spec :
    ∀ {N C : ℕ} (bexp : ℝ → ℝ),
      (∀ q, 0 < bexp q) → (∀ q r, bexp (q + r) = bexp q * bexp r) →
      ∀ (x : Fin N → Fin (C + 1) → ℝ) (i : Fin N),
        (∑ j, softmaxF bexp x i j = 1) ∧
        ∀ j, softmaxF bexp x i j = bexp (x i j) / ∑ p, bexp (x i p) := by
  intro N C bexp hpos hadd x i
  have hnaive : ∀ j, softmaxF bexp x i j = bexp (x i j) / ∑ p, bexp (x i p) :=
    fun j => softmaxF_eq_simple bexp hpos hadd x i j
  refine ⟨?_, hnaive⟩
  rw [Finset.sum_congr rfl (fun j _ => hnaive j), ← Finset.sum_div,
    div_self (ne_of_gt (Finset.sum_pos (fun p _ => hpos _) Finset.univ_nonempty))]

/-- Witness for C6: the all-zero 1×2 matrix with the real exponential. -/
theorem softmax_spec_witness :
    (∑ j, softmaxF (N := 1) (C := 1) Real.exp (fun _ _ => (0 : ℝ)) 0 j = 1) ∧
      ∀ j, softmaxF (N := 1) (C := 1) Real.exp (fun _ _ => (0 : ℝ)) 0 j
        = Real.exp 0 / ∑ p : Fin 2, Real.exp 0 :=
  softmax_spec Real.exp (fun q => Real.exp_pos q) Real.exp_add (fun _ _ => (0 : ℝ)) 0

lemma rowMax_zero : rowMax (N := 1) (C := 2) (fun _ _ => (0 : ℝ)) 0 = 0 := by
  unfold rowMax
  exact Finset.sup'_const _ _

lemma softmaxF_zero (j : Fin 3) :
    softmaxF (N := 1) (C := 2) Real.exp (fun _ _ => (0 : ℝ)) 0 j = 1 / 3 := by
  unfold softmaxF
  rw [rowMax_zero]
  simp [Real.exp_zero, Finset.sum_const, Finset.card_univ]

/-- C2: the backward of the fused softmax cross-entropy returns the input
gradient `(softmax(x) - one_hot(t))` scaled by `gy/N`; in particular with
`x = [[0,0,0]]` and `t = [0]` the forward loss equals `log 3` and the
gradient at `x` is `(1/3 - 1, 1/3, 1/3) = (-2/3, 1/3, 1/3)`, matching
`softmax(x) - one_hot(t)` scaled by `1/N` with `N = 1`. -/
theorem softmax_cross_entropy_spec :
    (∀ {N C : ℕ} (bexp : ℝ → ℝ),
      (∀ q, 0 < bexp q) → (∀ q r, bexp (q + r) = bexp q * bexp r) →
      ∀ (x : Fin N → Fin (C + 1) → ℝ) (t : Fin N → Fin (C + 1)) (gy : ℝ)
        (i : Fin N) (j : Fin (C + 1)),
        softmaxCrossEntropyBackward bexp x t gy i j
          = (bexp (x i j) / (∑ p, bexp (x i p)) - (if j = t i then 1 else 0))
              * gy / (N : ℝ)) ∧
    softmaxCrossEntropyForward (N := 1) (C := 2) Real.exp Real.log
        (fun _ _ => 0) (fun _ => 0) = Real.log 3 ∧
    softmaxCrossEntropyBackward (N := 1) (C := 2) Real.exp
        (fun _ _ => 0) (fun _ => 0) 1 0 0 = -(2 / 3) ∧
    softmaxCrossEntropyBackward (N := 1) (C := 2) Real.exp
        (fun _ _ => 0) (fun _ => 0) 1 0 1 = 1 / 3 ∧
    softmaxCrossEntropyBackward (N := 1) (C := 2) Real.exp
        (fun _ _ => 0) (fun _ => 0) 1 0 2 = 1 / 3 := by
  refine ⟨?_, ?_, ?_, ?_, ?_⟩
  · intro N C bexp hpos hadd x t gy i j
    unfold softmaxCrossEntropyBackward
    rw [softmaxF_eq_simple bexp hpos hadd]
    unfold softmax_simple
    ring
  · unfold softmaxCrossEntropyForward logsumexp
    rw [Fin.sum_univ_one, rowMax_zero]
    simp [Real.exp_zero, Finset.sum_const, Finset.card_univ]
  · unfold softmaxCrossEntropyBackward
    rw [softmaxF_zero 0]
    norm_num
  · unfold softmaxCrossEntropyBackward
    rw [softmaxF_zero 1]
    rw [if_neg (by decide)]
    norm_num
  · unfold softmaxCrossEntropyBackward
    rw [softmaxF_zero 2]
    rw [if_neg (by decide)]
    norm_num

/-- Witness for C2's general backward law at the real exponential on the
concrete zero-logit input. -/
theorem softmax_cross_entropy_spec_witness :
    softmaxCrossEntropyBackward (N := 1) (C := 2) Real.exp
        (fun _ _ => (0 : ℝ)) (fun _ => 0) 1 0 1
      = (Real.exp 0 / (∑ p : Fin 3, Real.exp 0)
          - (if (1 : Fin 3) = 0 then 1 else 0)) * 1 / ((1 : ℕ) : ℝ) :=
  softmax_cross_entropy_spec.1 Real.exp (fun q => Real.exp_pos q) Real.exp_add
    (fun _ _ => (0 : ℝ)) (fun _ => 0) 1 0 1
